import Mathlib

/-!
Verification of the aggregation engine of the crime-dashboard app
(`src/App.jsx`).  The `chartData` computation (lines 73-123 of the source)
is embedded shallowly: JavaScript `Map` tables become insertion-ordered
association lists, the stable `Array.prototype.sort` becomes
`List.mergeSort`, and `new Date` parsing is an explicit parameter
`parse : String → Option (Nat × Nat)` returning the pair
(getFullYear, getMonth) on success and `none` when the date is invalid.
The table projection of lines 336-344 is embedded as `renderCell`.
-/

namespace CrimeDash

/-- The fields of one raw record that the aggregation reads.  Each is a
JSON string field that may be absent. -/
structure RawRecord where
  crm_cd_desc : Option String
  area_name : Option String
  area : Option String
  date_rptd : Option String
deriving DecidableEq

/-- JavaScript `v || d` on an optional string field: the value when the
field is present and non-empty (truthy), else `d`. -/
def jsOrS (v : Option String) (d : String) : String :=
  match v with
  | some s => if s = "" then d else s
  | none => d

/-- `record.crm_cd_desc || 'Unknown'` (source line 85). -/
def typeLabel (r : RawRecord) : String :=
  jsOrS r.crm_cd_desc "Unknown"

/-- `record.area_name || record.area || 'Unknown'` (source line 89). -/
def areaLabel (r : RawRecord) : String :=
  jsOrS r.area_name (jsOrS r.area "Unknown")

/-- JavaScript `s.padStart(2, '0')`. -/
def padStart2 (s : String) : String :=
  if s.length < 2 then String.mk (List.replicate (2 - s.length) '0') ++ s else s

/-- The month key of source line 96, for a successfully parsed date given
as (full year, zero-based month). -/
def monthKey (y : Nat) (m0 : Nat) : String :=
  toString y ++ "-" ++ padStart2 (toString (m0 + 1))

/-- The `overTime` key the loop derives from a record (source lines 93-98):
`record.date_rptd` must be truthy (present and non-empty) and `new Date`
(modelled by `parse`) must yield a valid date. -/
def dateKey (parse : String → Option (Nat × Nat)) (r : RawRecord) : Option String :=
  match r.date_rptd with
  | some s =>
      if s = "" then none else
        match parse s with
        | some ym => some (monthKey ym.1 ym.2)
        | none => none
  | none => none

/-- `map.set(k, (map.get(k) || 0) + 1)` on an insertion-ordered association
list: an existing key keeps its position, a new key is appended. -/
def bump (t : List (String × Nat)) (k : String) : List (String × Nat) :=
  if k ∈ t.map Prod.fst then
    t.map (fun p => if p.1 = k then (p.1, p.2 + 1) else p)
  else t ++ [(k, 1)]

/-- The mutable state of the loop of source lines 83-101. -/
structure AggState where
  typeCount : List (String × Nat)
  areaCount : List (String × Nat)
  timeCount : List (String × Nat)
  processed : Nat
deriving DecidableEq

/-- The initial state of the loop. -/
def initState : AggState := ⟨[], [], [], 0⟩

/-- The body of the `for (const record of data)` loop (source lines 83-101). -/
def step (parse : String → Option (Nat × Nat)) (st : AggState) (r : RawRecord) : AggState :=
  { typeCount := bump st.typeCount (typeLabel r)
    areaCount := bump st.areaCount (areaLabel r)
    timeCount :=
      match dateKey parse r with
      | some k => bump st.timeCount k
      | none => st.timeCount
    processed := st.processed + 1 }

/-- One entry of `crimesByType` (source lines 104-111): a display name, the
untruncated full name, and the count. -/
structure TypeEntry where
  name : String
  fullName : String
  value : Nat
deriving DecidableEq

/-- One entry of `crimesByArea` (source lines 113-116): the area name as
stored in the table, and the count.  No separate display label exists. -/
structure AreaEntry where
  name : String
  value : Nat
deriving DecidableEq

/-- One entry of `crimesOverTime` (source lines 118-120). -/
structure TimeEntry where
  name : String
  value : Nat
deriving DecidableEq

/-- The value of the `chartData` memo (source line 122). -/
structure ChartData where
  crimesByType : List TypeEntry
  crimesByArea : List AreaEntry
  crimesOverTime : List TimeEntry
  totalCount : Nat
deriving DecidableEq

/-- `name.length > 40 ? name.substring(0, 37) + '...' : name`
(source line 106). -/
def truncName (name : String) : String :=
  if name.length > 40 then name.take 37 ++ "..." else name

/-- The comparator `(a, b) => b.value - a.value` of source lines 110 and 115,
as the boolean relation a stable sort consumes. -/
def descType (a b : TypeEntry) : Bool := decide (b.value ≤ a.value)

/-- The same descending-by-value comparator for area entries. -/
def descArea (a b : AreaEntry) : Bool := decide (b.value ≤ a.value)

/-- The comparator `(a, b) => a.name.localeCompare(b.name)` of source
line 120, on the ASCII month keys it is applied to. -/
def ascTime (a b : TimeEntry) : Bool := decide (a.name ≤ b.name)

/-- The `chartData` computation (source lines 73-123).  `Array.from` of a
JS `Map` lists entries in insertion order, `sort` is stable, and
`slice(0, 15)` is `take 15`. -/
def chartData (parse : String → Option (Nat × Nat)) (data : List RawRecord) : ChartData :=
  if data.length = 0 then ⟨[], [], [], 0⟩ else
    let st := data.foldl (step parse) initState
    let crimesByType :=
      ((st.typeCount.map (fun p => TypeEntry.mk (truncName p.1) p.1 p.2)).mergeSort
        descType).take 15
    let crimesByArea :=
      ((st.areaCount.map (fun p => AreaEntry.mk p.1 p.2)).mergeSort descArea).take 15
    let crimesOverTime :=
      (st.timeCount.map (fun p => TimeEntry.mk p.1 p.2)).mergeSort ascTime
    ⟨crimesByType, crimesByArea, crimesOverTime, st.processed⟩

/-- A JavaScript scalar value as it appears in a table cell. -/
inductive JValue where
  | vStr (s : String)
  | vNum (n : Int)
  | vBool (b : Bool)
deriving DecidableEq

/-- JavaScript truthiness of a cell value. -/
def truthy : JValue → Bool
  | .vStr s => s ≠ ""
  | .vNum n => n ≠ 0
  | .vBool b => b

/-- `record[column]` on a record viewed as an association list of fields. -/
def jsGet (rec : List (String × JValue)) (column : String) : Option JValue :=
  (rec.find? (fun p => p.1 = column)).map (fun p => p.2)

/-- The table cell `record[column] || 'N/A'` (source line 340). -/
def renderCell (rec : List (String × JValue)) (column : String) : JValue :=
  match jsGet rec column with
  | some x => if truthy x then x else .vStr "N/A"
  | none => .vStr "N/A"

/-- `data.slice(0, 1000)` (source line 127). -/
def tableData (data : List RawRecord) : List RawRecord :=
  data.take 1000

/-- The area-label rule exactly as the claim states it: the primary field
whenever it is present, else the fallback field whenever it is present,
else the literal Unknown. -/
def claimAreaLabel (r : RawRecord) : String :=
  match r.area_name with
  | some s => s
  | none =>
      match r.area with
      | some s => s
      | none => "Unknown"

/-- The category-label rule as the claim states it: the category field when
present and non-empty, else the literal Unknown. -/
def specCategoryLabel (r : RawRecord) : String :=
  match r.crm_cd_desc with
  | some s => if s = "" then "Unknown" else s
  | none => "Unknown"

/-- The fallback half of the amended area-label rule. -/
def specAreaFallback (r : RawRecord) : String :=
  match r.area with
  | some s => if s = "" then "Unknown" else s
  | none => "Unknown"

/-- The amended area-label rule: each of the two fields is used only when
present and non-empty, with the literal Unknown as final fallback. -/
def specAreaLabel (r : RawRecord) : String :=
  match r.area_name with
  | some s => if s = "" then specAreaFallback r else s
  | none => specAreaFallback r

/-- A date parser that rejects every string; used to instantiate theorems
at concrete inputs whose dates do not matter. -/
def parseNone : String → Option (Nat × Nat) := fun _ => none

/-- A date parser recognising exactly the sample date of the spec
scenario, as `new Date` would resolve it. -/
def parseSample : String → Option (Nat × Nat) :=
  fun s => if s = "2021-03-15" then some (2021, 2) else none

/-- A 45-character label, used to exercise the 40-character truncation
threshold on the category view and its absence on the area view. -/
def label45 : String := "SAN FERNANDO VALLEY NORTHRIDGE WEST DIVISN 45"

/-- Observer used in proofs: the count a table stores for a key, zero when
the key is absent, reading the first matching entry as a JS `Map` would. -/
def tableGet (t : List (String × Nat)) (k : String) : Nat :=
  match t.find? (fun p => p.1 = k) with
  | some p => p.2
  | none => 0

/-- Observer used in proofs: the key sequence a run of `bump` produces —
existing keys keep their order, new keys are appended in first-occurrence
order. -/
def addNew (ks : List String) (labels : List String) : List String :=
  labels.foldl (fun a k => if k ∈ a then a else a ++ [k]) ks

end CrimeDash

namespace CrimeDash

open List

/-- The running count of the loop grows by exactly the number of records folded. -/
theorem foldl_step_processed (parse : String → Option (Nat × Nat))
    (data : List RawRecord) (st : AggState) :
    (data.foldl (step parse) st).processed = st.processed + data.length := by
  induction data generalizing st with
  | nil => simp
  | cons r rs ih =>
      simp only [List.foldl_cons, ih, step, List.length_cons]
      omega

/-- The type table of the loop is the fold of `bump` over the resolved
category labels. -/
theorem foldl_step_typeCount (parse : String → Option (Nat × Nat))
    (data : List RawRecord) (st : AggState) :
    (data.foldl (step parse) st).typeCount = (data.map typeLabel).foldl bump st.typeCount := by
  induction data generalizing st with
  | nil => rfl
  | cons r rs ih => simp only [List.foldl_cons, List.map_cons, ih, step]

/-- The area table of the loop is the fold of `bump` over the resolved
area labels. -/
theorem foldl_step_areaCount (parse : String → Option (Nat × Nat))
    (data : List RawRecord) (st : AggState) :
    (data.foldl (step parse) st).areaCount = (data.map areaLabel).foldl bump st.areaCount := by
  induction data generalizing st with
  | nil => rfl
  | cons r rs ih => simp only [List.foldl_cons, List.map_cons, ih, step]

/-- The time table of the loop is the fold of `bump` over the month keys of
the records whose dates resolve. -/
theorem foldl_step_timeCount (parse : String → Option (Nat × Nat))
    (data : List RawRecord) (st : AggState) :
    (data.foldl (step parse) st).timeCount =
      (data.filterMap (dateKey parse)).foldl bump st.timeCount := by
  induction data generalizing st with
  | nil => rfl
  | cons r rs ih =>
      simp only [List.foldl_cons, ih, step]
      cases h : dateKey parse r <;> simp [List.filterMap_cons, h]

/-- The keys of a bumped table: unchanged for a known key, the new key
appended otherwise. -/
theorem bump_keys (t : List (String × Nat)) (k : String) :
    (bump t k).map Prod.fst =
      if k ∈ t.map Prod.fst then t.map Prod.fst else t.map Prod.fst ++ [k] := by
  unfold bump
  by_cases h : k ∈ t.map Prod.fst
  · rw [if_pos h, if_pos h, List.map_map]
    apply List.map_congr_left
    intro p _
    by_cases hpk : p.1 = k <;> simp [hpk]
  · rw [if_neg h, if_neg h]
    simp

/-- Bumping preserves distinctness of the table keys. -/
theorem bump_keys_nodup (t : List (String × Nat)) (k : String)
    (h : (t.map Prod.fst).Nodup) : ((bump t k).map Prod.fst).Nodup := by
  rw [bump_keys]
  by_cases hk : k ∈ t.map Prod.fst
  · simpa [hk] using h
  · simp [hk, List.nodup_append, h]

/-- Key membership after a bump. -/
theorem bump_keys_mem (t : List (String × Nat)) (k k' : String) :
    k' ∈ (bump t k).map Prod.fst ↔ k' ∈ t.map Prod.fst ∨ k' = k := by
  rw [bump_keys]
  by_cases hk : k ∈ t.map Prod.fst
  · rw [if_pos hk]
    constructor
    · exact Or.inl
    · rintro (h | rfl)
      · exact h
      · exact hk
  · rw [if_neg hk]
    simp

/-- Key membership after folding `bump` over a label sequence. -/
theorem foldl_bump_keys_mem (labels : List String) (t : List (String × Nat)) (k : String) :
    k ∈ (labels.foldl bump t).map Prod.fst ↔ k ∈ t.map Prod.fst ∨ k ∈ labels := by
  induction labels generalizing t with
  | nil => simp
  | cons l ls ih =>
      rw [List.foldl_cons, ih, bump_keys_mem]
      simp [or_assoc]

/-- Folding `bump` preserves distinctness of the table keys. -/
theorem foldl_bump_keys_nodup (labels : List String) (t : List (String × Nat))
    (h : (t.map Prod.fst).Nodup) : ((labels.foldl bump t).map Prod.fst).Nodup := by
  induction labels generalizing t with
  | nil => exact h
  | cons l ls ih => exact ih _ (bump_keys_nodup _ _ h)

/-- Reading a one-step-extended table. -/
theorem tableGet_cons (q : String × Nat) (t : List (String × Nat)) (k' : String) :
    tableGet (q :: t) k' = if q.1 = k' then q.2 else tableGet t k' := by
  by_cases h : q.1 = k' <;> simp [tableGet, List.find?_cons, h]

/-- Reading a table after the in-place update half of `bump`. -/
theorem tableGet_update (t : List (String × Nat)) (k k' : String) :
    tableGet (t.map (fun p => if p.1 = k then (p.1, p.2 + 1) else p)) k' =
      tableGet t k' + (if k' = k ∧ k' ∈ t.map Prod.fst then 1 else 0) := by
  induction t with
  | nil => simp [tableGet]
  | cons p ps ih =>
      have hfst : (if p.1 = k then (p.1, p.2 + 1) else p).1 = p.1 := by
        by_cases hpk : p.1 = k <;> simp [hpk]
      rw [List.map_cons, tableGet_cons, hfst, tableGet_cons]
      by_cases hp : p.1 = k'
      · rw [if_pos hp, if_pos hp]
        have hmem : k' ∈ (p :: ps).map Prod.fst := by
          rw [List.map_cons, ← hp]
          exact List.mem_cons_self _ _
        by_cases hpk : p.1 = k
        · have hk : k' = k := by rw [← hp, hpk]
          have hm2 : k' ∈ p.1 :: List.map Prod.fst ps := by
            rw [← hp]
            exact List.mem_cons_self _ _
          rw [if_pos hpk]
          simp [hk, hp]
        · have hk : ¬ k' = k := by rw [← hp]; exact hpk
          rw [if_neg hpk]
          simp [hk]
      · rw [if_neg hp, if_neg hp, ih]
        have hiff : (k' = k ∧ k' ∈ (p :: ps).map Prod.fst) ↔
            (k' = k ∧ k' ∈ ps.map Prod.fst) := by
          rw [List.map_cons, List.mem_cons]
          constructor
          · rintro ⟨h1, h2 | h2⟩
            · exact absurd h2.symm hp
            · exact ⟨h1, h2⟩
          · rintro ⟨h1, h2⟩
            exact ⟨h1, Or.inr h2⟩
        simp only [hiff]

/-- Reading a table after appending a fresh key with count one. -/
theorem tableGet_append_new (t : List (String × Nat)) (k k' : String)
    (h : k ∉ t.map Prod.fst) :
    tableGet (t ++ [(k, 1)]) k' = tableGet t k' + (if k' = k then 1 else 0) := by
  induction t with
  | nil =>
      rw [List.nil_append, tableGet_cons]
      by_cases hk : k' = k
      · simp [tableGet, hk]
      · rw [if_neg (fun he => hk he.symm), if_neg hk]
        simp
  | cons q qs ih =>
      rw [List.map_cons, List.mem_cons] at h
      push_neg at h
      rw [List.cons_append, tableGet_cons, tableGet_cons]
      by_cases hq : q.1 = k'
      · rw [if_pos hq, if_pos hq]
        have hk : ¬ k' = k := by
          rw [← hq]
          intro he
          exact h.1 he.symm
        rw [if_neg hk]
        simp
      · rw [if_neg hq, if_neg hq, ih h.2]

/-- Reading a table after a bump: the bumped key gains one, others are
unchanged. -/
theorem tableGet_bump (t : List (String × Nat)) (k k' : String) :
    tableGet (bump t k) k' = tableGet t k' + (if k' = k then 1 else 0) := by
  unfold bump
  by_cases h : k ∈ t.map Prod.fst
  · rw [if_pos h, tableGet_update]
    by_cases hk : k' = k
    · simp [hk, h]
    · simp [hk]
  · rw [if_neg h]
    exact tableGet_append_new t k k' h

/-- Reading a table after folding `bump`: each key's count grows by its
number of occurrences in the label sequence. -/
theorem tableGet_foldl_bump (labels : List String) (t : List (String × Nat)) (k : String) :
    tableGet (labels.foldl bump t) k = tableGet t k + labels.count k := by
  induction labels generalizing t with
  | nil => simp
  | cons l ls ih =>
      rw [List.foldl_cons, ih, tableGet_bump, List.count_cons]
      by_cases h : k = l
      · subst h
        rw [if_pos rfl, if_pos (by simp)]
        omega
      · have hb : ¬ ((l == k) = true) := by
          simp only [beq_iff_eq]
          exact fun he => h he.symm
        rw [if_neg h, if_neg hb]
        omega

/-- Under distinct keys, a table entry's stored value is what `tableGet`
reads for its key. -/
theorem tableGet_of_mem (t : List (String × Nat)) (p : String × Nat)
    (hnd : (t.map Prod.fst).Nodup) (hp : p ∈ t) : tableGet t p.1 = p.2 := by
  induction t with
  | nil => cases hp
  | cons q qs ih =>
      rw [List.map_cons, List.nodup_cons] at hnd
      rcases List.mem_cons.mp hp with rfl | hp
      · rw [tableGet_cons, if_pos rfl]
      · have h1 : q.1 ≠ p.1 := fun he => hnd.1 (he ▸ List.mem_map_of_mem Prod.fst hp)
        rw [tableGet_cons, if_neg h1]
        exact ih hnd.2 hp

/-- In a list with distinct projections, two members with the same
projection are equal. -/
theorem mem_proj_unique {α β : Type} (f : α → β) (l : List α)
    (hnd : (l.map f).Nodup) (a b : α) (ha : a ∈ l) (hb : b ∈ l)
    (he : f a = f b) : a = b := by
  induction l with
  | nil => cases ha
  | cons x xs ih =>
      rw [List.map_cons, List.nodup_cons] at hnd
      rcases List.mem_cons.mp ha with ha1 | ha2
      · rcases List.mem_cons.mp hb with hb1 | hb2
        · rw [ha1, hb1]
        · subst ha1
          exact absurd (List.mem_map_of_mem f hb2) (he ▸ hnd.1)
      · rcases List.mem_cons.mp hb with hb1 | hb2
        · subst hb1
          exact absurd (he ▸ List.mem_map_of_mem f ha2) hnd.1
        · exact ih hnd.2 ha2 hb2

/-- Every entry of the table built from a label sequence stores exactly the
number of occurrences of its key. -/
theorem snd_eq_count (labels : List String) (p : String × Nat)
    (hp : p ∈ labels.foldl bump []) : p.2 = labels.count p.1 := by
  have hnd := foldl_bump_keys_nodup labels [] (by simp)
  have h1 := tableGet_of_mem _ p hnd hp
  have h2 := tableGet_foldl_bump labels [] p.1
  have h0 : tableGet ([] : List (String × Nat)) p.1 = 0 := rfl
  omega

/-- C1: For every input sequence of RawRecord, the totalProcessed field
(`totalCount`) of the AggregationResult returned by `chartData` equals the
length of the input sequence, including records with missing or malformed
category, area, or date fields. -/
theorem c1_totalCount_eq_length (parse : String → Option (Nat × Nat))
    (data : List RawRecord) :
    (chartData parse data).totalCount = data.length := by
  unfold chartData
  by_cases h : data.length = 0
  · simp [h]
  · simp only [h, if_neg, ite_false]
    simpa [initState] using foldl_step_processed parse data initState

/-- C9: `chartData` is total: on every well-typed input sequence, however
missing, empty, or malformed the fields of its records, it completes and
returns a ChartData value rather than failing. -/
theorem c9_total (parse : String → Option (Nat × Nat)) (data : List RawRecord) :
    ∃ res : ChartData, chartData parse data = res :=
  ⟨chartData parse data, rfl⟩

/-- C10: In the table projection, a cell renders as the literal N/A not
only when the record's field is absent but for every falsy resolved value
(present empty string, the number 0, or false), and as the value itself
only when the value is truthy. -/
theorem c10_falsy_na (rec : List (String × JValue)) (column : String) :
    (jsGet rec column = none → renderCell rec column = .vStr "N/A") ∧
    (∀ v, jsGet rec column = some v → truthy v = false →
      renderCell rec column = .vStr "N/A") ∧
    (∀ v, jsGet rec column = some v → truthy v = true →
      renderCell rec column = v) ∧
    truthy (.vStr "") = false ∧ truthy (.vNum 0) = false ∧
    truthy (.vBool false) = false := by
  refine ⟨?_, ?_, ?_, by decide, by decide, by decide⟩
  · intro h
    unfold renderCell
    rw [h]
  · intro v hv ht
    unfold renderCell
    rw [hv]
    simp [ht]
  · intro v hv ht
    unfold renderCell
    rw [hv]
    simp [ht]

/-- C10 witness: a present value 0 in a field renders as N/A. -/
theorem c10_witness :
    jsGet [("vict_age", JValue.vNum 0)] "vict_age" = some (JValue.vNum 0) ∧
    renderCell [("vict_age", JValue.vNum 0)] "vict_age" = JValue.vStr "N/A" :=
  ⟨by decide,
    (c10_falsy_na [("vict_age", JValue.vNum 0)] "vict_age").2.1 (JValue.vNum 0)
      (by decide) (by decide)⟩

/-- The in-place update half of `bump` adds exactly one to the stored total
when the key occurs in a table with distinct keys. -/
theorem sum_update (t : List (String × Nat)) (k : String)
    (hnd : (t.map Prod.fst).Nodup) (h : k ∈ t.map Prod.fst) :
    ((t.map (fun p => if p.1 = k then (p.1, p.2 + 1) else p)).map Prod.snd).sum =
      (t.map Prod.snd).sum + 1 := by
  induction t with
  | nil => simp at h
  | cons p ps ih =>
      rw [List.map_cons, List.nodup_cons] at hnd
      by_cases hpk : p.1 = k
      · have hid : ∀ q ∈ ps, (if q.1 = k then (q.1, q.2 + 1) else q) = q := by
          intro q hq
          rw [if_neg]
          intro he
          apply hnd.1
          rw [hpk, ← he]
          exact List.mem_map_of_mem Prod.fst hq
        have hmap : ps.map (fun p => if p.1 = k then (p.1, p.2 + 1) else p) = ps := by
          rw [List.map_congr_left hid]
          exact List.map_id' ps
        rw [List.map_cons, if_pos hpk, hmap]
        simp only [List.map_cons, List.sum_cons]
        omega
      · have hps : k ∈ ps.map Prod.fst := by
          rw [List.map_cons] at h
          rcases List.mem_cons.mp h with h1 | h1
          · exact absurd h1.symm hpk
          · exact h1
        rw [List.map_cons, if_neg hpk]
        simp only [List.map_cons, List.sum_cons]
        rw [ih hnd.2 hps]
        omega

/-- A bump adds exactly one to the total stored in a table with distinct
keys: exactly one label's count is incremented. -/
theorem bump_sum (t : List (String × Nat)) (k : String)
    (hnd : (t.map Prod.fst).Nodup) :
    ((bump t k).map Prod.snd).sum = (t.map Prod.snd).sum + 1 := by
  unfold bump
  by_cases h : k ∈ t.map Prod.fst
  · rw [if_pos h]
    exact sum_update t k hnd h
  · rw [if_neg h]
    simp

/-- C3 as stated is false: an area-name field that is present but empty
(falsy) is skipped in favour of the fallback area field, so the label
counted is not the primary field's value whenever that field is present. -/
theorem c3_counterexample :
    areaLabel ⟨some "X", some "", some "FALLBACK", none⟩ = "FALLBACK" ∧
    claimAreaLabel ⟨some "X", some "", some "FALLBACK", none⟩ = "" ∧
    (chartData parseNone [⟨some "X", some "", some "FALLBACK", none⟩]).crimesByArea =
      [⟨"FALLBACK", 1⟩] ∧
    ("FALLBACK" : String) ≠ "" := by
  refine ⟨by decide, rfl, ?_, by decide⟩
  simp [chartData, initState, step, bump, typeLabel, areaLabel, jsOrS, dateKey, parseNone]

/-- C3 amended: the category label counted is the category field when
present and non-empty, else Unknown; the area label counted is the primary
area-name field when present and non-empty, else the fallback area field
when present and non-empty, else Unknown; and each record increments
exactly one category count and exactly one area count (each table's stored
total grows by exactly one). -/
theorem c3_labels (parse : String → Option (Nat × Nat)) (st : AggState)
    (r : RawRecord) (hty : (st.typeCount.map Prod.fst).Nodup)
    (har : (st.areaCount.map Prod.fst).Nodup) :
    (step parse st r).typeCount = bump st.typeCount (specCategoryLabel r) ∧
    (step parse st r).areaCount = bump st.areaCount (specAreaLabel r) ∧
    ((step parse st r).typeCount.map Prod.snd).sum =
      (st.typeCount.map Prod.snd).sum + 1 ∧
    ((step parse st r).areaCount.map Prod.snd).sum =
      (st.areaCount.map Prod.snd).sum + 1 := by
  have h1 : typeLabel r = specCategoryLabel r := by
    unfold typeLabel jsOrS specCategoryLabel
    cases r.crm_cd_desc <;> rfl
  have h2 : areaLabel r = specAreaLabel r := by
    unfold areaLabel jsOrS specAreaLabel specAreaFallback
    cases r.area_name <;> cases r.area <;> rfl
  refine ⟨?_, ?_, ?_, ?_⟩
  · simp only [step]
    rw [h1]
  · simp only [step]
    rw [h2]
  · simp only [step]
    exact bump_sum _ _ hty
  · simp only [step]
    exact bump_sum _ _ har

/-- C3 witness: a record with empty primary area field, concretely. -/
theorem c3_witness :
    (([] : List (String × Nat)).map Prod.fst).Nodup ∧
    (step parseNone initState ⟨none, some "", some "F", none⟩).areaCount =
      bump initState.areaCount (specAreaLabel ⟨none, some "", some "F", none⟩) :=
  ⟨by simp,
    (c3_labels parseNone initState ⟨none, some "", some "F", none⟩
      (by simp [initState]) (by simp [initState])).2.1⟩

/-- C6: a record whose date field is present and parses as a valid date
bumps exactly the bucket keyed by its year and (1-indexed, zero-padded)
month; a record whose date field is absent or fails to parse leaves the
time table unchanged; in every case the record still increments the
processed count and its category and area tables.  The hypothesis records
the JavaScript fact that the empty string is not a valid date. -/
theorem c6_date_handling (parse : String → Option (Nat × Nat)) (st : AggState)
    (r : RawRecord) (hp : parse "" = none) :
    (∀ s y m0, r.date_rptd = some s → parse s = some (y, m0) →
      (step parse st r).timeCount = bump st.timeCount (monthKey y m0)) ∧
    ((r.date_rptd = none ∨ ∃ s, r.date_rptd = some s ∧ parse s = none) →
      (step parse st r).timeCount = st.timeCount) ∧
    (step parse st r).processed = st.processed + 1 ∧
    (step parse st r).typeCount = bump st.typeCount (typeLabel r) ∧
    (step parse st r).areaCount = bump st.areaCount (areaLabel r) := by
  refine ⟨?_, ?_, rfl, rfl, rfl⟩
  · intro s y m0 hs hparse
    by_cases hse : s = ""
    · subst hse
      rw [hp] at hparse
      cases hparse
    · simp only [step, dateKey, hs, hse, if_neg, ite_false, hparse]
  · rintro (hn | ⟨s, hs, hps⟩)
    · simp only [step, dateKey, hn]
    · by_cases hse : s = ""
      · simp only [step, dateKey, hs, hse, if_pos, ite_true]
      · simp only [step, dateKey, hs, hse, if_neg, ite_false, hps]

/-- The value of `chartData` on a non-empty input, with each component
written out over the label folds. -/
theorem chartData_eq (parse : String → Option (Nat × Nat)) (data : List RawRecord)
    (h : ¬ data.length = 0) :
    chartData parse data = ChartData.mk
      (((((data.map typeLabel).foldl bump []).map
        (fun p => TypeEntry.mk (truncName p.1) p.1 p.2)).mergeSort descType).take 15)
      (((((data.map areaLabel).foldl bump []).map
        (fun p => AreaEntry.mk p.1 p.2)).mergeSort descArea).take 15)
      ((((data.filterMap (dateKey parse)).foldl bump []).map
        (fun p => TimeEntry.mk p.1 p.2)).mergeSort ascTime)
      data.length := by
  unfold chartData
  rw [if_neg h]
  simp only [foldl_step_typeCount, foldl_step_areaCount, foldl_step_timeCount,
    foldl_step_processed, initState, Nat.zero_add]

/-- The descending-by-value comparator is transitive. -/
theorem descType_trans : ∀ a b c : TypeEntry, descType a b → descType b c → descType a c := by
  intro a b c h1 h2
  simp only [descType, decide_eq_true_eq] at h1 h2 ⊢
  omega

/-- The descending-by-value comparator is total. -/
theorem descType_total : ∀ a b : TypeEntry, descType a b || descType b a := by
  intro a b
  simp only [descType, Bool.or_eq_true, decide_eq_true_eq]
  exact Nat.le_total _ _

/-- The descending-by-value comparator on area entries is transitive. -/
theorem descArea_trans : ∀ a b c : AreaEntry, descArea a b → descArea b c → descArea a c := by
  intro a b c h1 h2
  simp only [descArea, decide_eq_true_eq] at h1 h2 ⊢
  omega

/-- The descending-by-value comparator on area entries is total. -/
theorem descArea_total : ∀ a b : AreaEntry, descArea a b || descArea b a := by
  intro a b
  simp only [descArea, Bool.or_eq_true, decide_eq_true_eq]
  exact Nat.le_total _ _

/-- The ascending-by-key comparator on time entries is transitive. -/
theorem ascTime_trans : ∀ a b c : TimeEntry, ascTime a b → ascTime b c → ascTime a c := by
  intro a b c h1 h2
  simp only [ascTime, decide_eq_true_eq] at h1 h2 ⊢
  exact le_trans h1 h2

/-- The ascending-by-key comparator on time entries is total. -/
theorem ascTime_total : ∀ a b : TimeEntry, ascTime a b || ascTime b a := by
  intro a b
  simp only [ascTime, Bool.or_eq_true, decide_eq_true_eq]
  exact le_total _ _

/-- A member of a truncated sorted view is a member of the unsorted list. -/
theorem mem_take_mergeSort {α : Type} (le : α → α → Bool) (l : List α) (n : Nat)
    (e : α) (he : e ∈ (l.mergeSort le).take n) : e ∈ l :=
  List.mem_mergeSort.mp ((List.take_sublist n (l.mergeSort le)).subset he)

/-- C4: the byCategory and byArea views each have length at most 15 and are
sorted non-increasing by value; entries beyond rank 15 are dropped rather
than merged — every returned entry's value is exactly the full count of its
label over the whole input. -/
theorem c4_top15 (parse : String → Option (Nat × Nat)) (data : List RawRecord) :
    (chartData parse data).crimesByType.length ≤ 15 ∧
    (chartData parse data).crimesByArea.length ≤ 15 ∧
    ((chartData parse data).crimesByType.map TypeEntry.value).Pairwise (· ≥ ·) ∧
    ((chartData parse data).crimesByArea.map AreaEntry.value).Pairwise (· ≥ ·) ∧
    (∀ e ∈ (chartData parse data).crimesByType,
      e.value = (data.map typeLabel).count e.fullName) ∧
    (∀ e ∈ (chartData parse data).crimesByArea,
      e.value = (data.map areaLabel).count e.name) := by
  by_cases h : data.length = 0
  · simp [chartData, h]
  · rw [chartData_eq parse data h]
    refine ⟨List.length_take_le _ _, List.length_take_le _ _, ?_, ?_, ?_, ?_⟩
    · rw [List.pairwise_map]
      have hs := List.sorted_mergeSort descType_trans descType_total
        (((data.map typeLabel).foldl bump []).map
          (fun p => TypeEntry.mk (truncName p.1) p.1 p.2))
      exact ((hs.sublist (List.take_sublist _ _)).imp
        (fun hab => by simpa [descType] using hab))
    · rw [List.pairwise_map]
      have hs := List.sorted_mergeSort descArea_trans descArea_total
        (((data.map areaLabel).foldl bump []).map (fun p => AreaEntry.mk p.1 p.2))
      exact ((hs.sublist (List.take_sublist _ _)).imp
        (fun hab => by simpa [descArea] using hab))
    · intro e he
      obtain ⟨p, hp, hpe⟩ := List.mem_map.mp (mem_take_mergeSort _ _ _ _ he)
      subst hpe
      exact snd_eq_count _ p hp
    · intro e he
      obtain ⟨p, hp, hpe⟩ := List.mem_map.mp (mem_take_mergeSort _ _ _ _ he)
      subst hpe
      exact snd_eq_count _ p hp

/-- C4 witness: a one-record input, concretely. -/
theorem c4_witness :
    (TypeEntry.mk "THEFT" "THEFT" 1).value =
      (([⟨some "THEFT", none, none, none⟩] : List RawRecord).map typeLabel).count
        (TypeEntry.mk "THEFT" "THEFT" 1).fullName := by
  have he : TypeEntry.mk "THEFT" "THEFT" 1 ∈
      (chartData parseNone [⟨some "THEFT", none, none, none⟩]).crimesByType := by
    simp [chartData, initState, step, bump, typeLabel, areaLabel, jsOrS, dateKey,
      parseNone, truncName]
    decide
  exact (c4_top15 parseNone [⟨some "THEFT", none, none, none⟩]).2.2.2.2.1 _ he

/-- C7: every retained byCategory entry whose full label exceeds 40
characters displays the first 37 characters followed by the ellipsis
marker, every other entry displays the full label unchanged, and the full
label is the original resolved category text of some input record. -/
theorem c7_display_truncation (parse : String → Option (Nat × Nat))
    (data : List RawRecord) (e : TypeEntry)
    (he : e ∈ (chartData parse data).crimesByType) :
    (e.fullName.length > 40 → e.name = e.fullName.take 37 ++ "...") ∧
    (e.fullName.length ≤ 40 → e.name = e.fullName) ∧
    (∃ r ∈ data, e.fullName = typeLabel r) := by
  by_cases h : data.length = 0
  · rw [chartData, if_pos h] at he
    cases he
  · rw [chartData_eq parse data h] at he
    obtain ⟨p, hp, hpe⟩ := List.mem_map.mp (mem_take_mergeSort _ _ _ _ he)
    subst hpe
    refine ⟨?_, ?_, ?_⟩
    · intro hlen
      have hl : 40 < p.1.length := hlen
      simp only [truncName]
      rw [if_pos hl]
    · intro hlen
      have hl : p.1.length ≤ 40 := hlen
      simp only [truncName]
      rw [if_neg (by omega)]
    · have hk : p.1 ∈ ((data.map typeLabel).foldl bump []).map Prod.fst :=
        List.mem_map_of_mem Prod.fst hp
      rw [foldl_bump_keys_mem] at hk
      rcases hk with hk | hk
      · simp at hk
      · obtain ⟨r, hr, hre⟩ := List.mem_map.mp hk
        exact ⟨r, hr, hre.symm⟩

/-- C7 witness: a 45-character category label is displayed as its first 37
characters plus the ellipsis marker. -/
theorem c7_witness :
    label45.length > 40 ∧
    (TypeEntry.mk (truncName label45) label45 1).name = label45.take 37 ++ "..." := by
  refine ⟨by decide, ?_⟩
  have he : TypeEntry.mk (truncName label45) label45 1 ∈
      (chartData parseNone [⟨some label45, none, none, none⟩]).crimesByType := by
    simp [chartData, initState, step, bump, typeLabel, areaLabel, jsOrS, dateKey,
      parseNone]
    have hne : ¬ (label45 = "") := by decide
    rw [if_neg hne]
    exact ⟨rfl, rfl⟩
  exact (c7_display_truncation parseNone [⟨some label45, none, none, none⟩] _ he).1
    (by decide)

/-- C5: the overTime view is sorted strictly increasing by its period key
under string comparison (hence has no duplicate keys), and it contains
exactly one entry per distinct month key observed among the records whose
dates resolve — in particular it has no length cap. -/
theorem c5_overTime (parse : String → Option (Nat × Nat)) (data : List RawRecord) :
    ((chartData parse data).crimesOverTime.map TimeEntry.name).Pairwise (· < ·) ∧
    (∀ k, (∃ e ∈ (chartData parse data).crimesOverTime, e.name = k) ↔
      k ∈ data.filterMap (dateKey parse)) := by
  by_cases h : data.length = 0
  · have hd : data = [] := List.length_eq_zero.mp h
    subst hd
    simp [chartData]
  · rw [chartData_eq parse data h]
    have hperm := List.mergeSort_perm
      ((((data.filterMap (dateKey parse)).foldl bump []).map
        (fun p => TimeEntry.mk p.1 p.2))) ascTime
    have hnames : ((((data.filterMap (dateKey parse)).foldl bump []).map
        (fun p => TimeEntry.mk p.1 p.2)).map TimeEntry.name) =
        ((data.filterMap (dateKey parse)).foldl bump []).map Prod.fst := by
      rw [List.map_map]
      rfl
    constructor
    · have hle := List.sorted_mergeSort ascTime_trans ascTime_total
        ((((data.filterMap (dateKey parse)).foldl bump []).map
          (fun p => TimeEntry.mk p.1 p.2)))
      have hLe : ((((data.filterMap (dateKey parse)).foldl bump []).map
          (fun p => TimeEntry.mk p.1 p.2)).mergeSort ascTime).Pairwise
          (fun a b : TimeEntry => a.name ≤ b.name) :=
        hle.imp (fun hab => by simpa [ascTime] using hab)
      have hnd : ((((data.filterMap (dateKey parse)).foldl bump []).map
          (fun p => TimeEntry.mk p.1 p.2)).mergeSort ascTime).Pairwise
          (fun a b : TimeEntry => a.name ≠ b.name) := by
        have h1 : ((((data.filterMap (dateKey parse)).foldl bump []).map
            (fun p => TimeEntry.mk p.1 p.2)).map TimeEntry.name).Nodup := by
          rw [hnames]
          exact foldl_bump_keys_nodup _ _ (by simp)
        have h2 := (hperm.map TimeEntry.name).nodup_iff.mpr h1
        have h3 : ((((data.filterMap (dateKey parse)).foldl bump []).map
            (fun p => TimeEntry.mk p.1 p.2)).mergeSort ascTime).map TimeEntry.name
            |>.Pairwise (· ≠ ·) := h2
        exact (List.pairwise_map).mp h3
      rw [List.pairwise_map]
      exact (hLe.and hnd).imp (fun hab => lt_of_le_of_ne hab.1 hab.2)
    · intro k
      constructor
      · rintro ⟨e, he, rfl⟩
        have h1 : e ∈ (((data.filterMap (dateKey parse)).foldl bump []).map
            (fun p => TimeEntry.mk p.1 p.2)) := List.mem_mergeSort.mp he
        obtain ⟨p, hp, hpe⟩ := List.mem_map.mp h1
        have hk : p.1 ∈ ((data.filterMap (dateKey parse)).foldl bump []).map Prod.fst :=
          List.mem_map_of_mem Prod.fst hp
        rw [foldl_bump_keys_mem] at hk
        rcases hk with hk | hk
        · simp at hk
        · rw [← hpe]
          exact hk
      · intro hk
        have hkeys : k ∈ ((data.filterMap (dateKey parse)).foldl bump []).map Prod.fst := by
          rw [foldl_bump_keys_mem]
          exact Or.inr hk
        obtain ⟨p, hp, hpe⟩ := List.mem_map.mp hkeys
        refine ⟨TimeEntry.mk p.1 p.2, List.mem_mergeSort.mpr (List.mem_map_of_mem _ hp), hpe⟩

/-- A run of key insertions only ever appends. -/
theorem addNew_append (ks labels : List String) :
    ∃ rest, addNew ks labels = ks ++ rest := by
  induction labels generalizing ks with
  | nil => exact ⟨[], (List.append_nil ks).symm⟩
  | cons l ls ih =>
      unfold addNew
      rw [List.foldl_cons]
      by_cases h : l ∈ ks
      · rw [if_pos h]
        exact ih ks
      · rw [if_neg h]
        obtain ⟨r, hr⟩ := ih (ks ++ [l])
        exact ⟨[l] ++ r, by rw [← List.append_assoc]; exact hr⟩

/-- The keys of a `bump` fold are the insertion run over the labels. -/
theorem foldl_bump_keys_addNew (labels : List String) (t : List (String × Nat)) :
    (labels.foldl bump t).map Prod.fst = addNew (t.map Prod.fst) labels := by
  induction labels generalizing t with
  | nil => rfl
  | cons l ls ih =>
      rw [List.foldl_cons, ih, bump_keys]
      unfold addNew
      rw [List.foldl_cons]

/-- First-occurrence order: in a key-insertion run, a key whose first
occurrence in the labels comes earlier (or that was already known) appears
before a later new key. -/
theorem addNew_pair_sublist (labels : List String) :
    ∀ (ks : List String) (k1 k2 : String), k1 ≠ k2 →
      k1 ∈ addNew ks labels → k2 ∈ addNew ks labels → k2 ∉ ks →
      (k1 ∈ ks ∨ labels.indexOf k1 < labels.indexOf k2) →
      [k1, k2] <+ addNew ks labels := by
  induction labels with
  | nil =>
      intro ks k1 k2 _ _ h2 hk2 _
      exact absurd h2 hk2
  | cons l ls ih =>
      intro ks k1 k2 h12 h1 h2 hk2 hord
      have e1 : addNew ks (l :: ls) =
          addNew (if l ∈ ks then ks else ks ++ [l]) ls := by
        unfold addNew
        rw [List.foldl_cons]
      by_cases hq : k2 = l
      · subst hq
        have hk1 : k1 ∈ ks := by
          rcases hord with hk1 | hlt
          · exact hk1
          · rw [List.indexOf_cons_self] at hlt
            exact absurd hlt (Nat.not_lt_zero _)
        have hks : (if k2 ∈ ks then ks else ks ++ [k2]) = ks ++ [k2] := if_neg hk2
        obtain ⟨rest, hrest⟩ := addNew_append (ks ++ [k2]) ls
        rw [e1, hks, hrest]
        have hsub : [k1, k2] <+ ks ++ [k2] := by
          have hx : [k1] <+ ks := List.singleton_sublist.mpr hk1
          simpa using hx.append (List.Sublist.refl [k2])
        exact hsub.trans (List.sublist_append_left _ _)
      · have hk2b : k2 ∉ (if l ∈ ks then ks else ks ++ [l]) := by
          by_cases hl : l ∈ ks
          · rw [if_pos hl]
            exact hk2
          · rw [if_neg hl]
            intro hmem
            rcases List.mem_append.mp hmem with hmem | hmem
            · exact hk2 hmem
            · exact hq (List.mem_singleton.mp hmem)
        have hord2 : k1 ∈ (if l ∈ ks then ks else ks ++ [l]) ∨
            ls.indexOf k1 < ls.indexOf k2 := by
          rcases hord with hk1 | hlt
          · left
            by_cases hl : l ∈ ks
            · rw [if_pos hl]
              exact hk1
            · rw [if_neg hl]
              exact List.mem_append_left _ hk1
          · by_cases hp : k1 = l
            · subst hp
              left
              by_cases hl : k1 ∈ ks
              · rw [if_pos hl]
                exact hl
              · rw [if_neg hl]
                exact List.mem_append_right _ (List.mem_singleton.mpr rfl)
            · right
              rw [List.indexOf_cons_ne _ (fun he => hp he.symm),
                List.indexOf_cons_ne _ (fun he => hq he.symm)] at hlt
              omega
        rw [e1] at h1 h2 ⊢
        exact ih _ k1 k2 h12 h1 h2 hk2b hord2

/-- Two table entries whose keys first occur in order in the label sequence
appear in that order in the table. -/
theorem table_pair_sublist (labels : List String) (k1 k2 : String) (v1 v2 : Nat)
    (h12 : k1 ≠ k2)
    (h1 : (k1, v1) ∈ labels.foldl bump []) (h2 : (k2, v2) ∈ labels.foldl bump [])
    (hord : labels.indexOf k1 < labels.indexOf k2) :
    [(k1, v1), (k2, v2)] <+ labels.foldl bump [] := by
  have hnd := foldl_bump_keys_nodup labels [] (by simp)
  have hkeq : (labels.foldl bump []).map Prod.fst = addNew [] labels := by
    have h0 := foldl_bump_keys_addNew labels []
    rwa [List.map_nil] at h0
  have hkeys : [k1, k2] <+ (labels.foldl bump []).map Prod.fst := by
    rw [hkeq]
    exact addNew_pair_sublist labels [] k1 k2 h12
      (hkeq ▸ List.mem_map_of_mem Prod.fst h1)
      (hkeq ▸ List.mem_map_of_mem Prod.fst h2)
      (by simp)
      (Or.inr hord)
  obtain ⟨l', hl', he⟩ := List.sublist_map_iff.mp hkeys
  match l', he with
  | [q1, q2], he =>
      obtain ⟨he1, he2⟩ : k1 = q1.1 ∧ k2 = q2.1 := by simpa using he
      have hq1 : q1 = (k1, v1) :=
        mem_proj_unique Prod.fst _ hnd q1 (k1, v1) (hl'.subset (by simp)) h1 he1.symm
      have hq2 : q2 = (k2, v2) :=
        mem_proj_unique Prod.fst _ hnd q2 (k2, v2) (hl'.subset (by simp)) h2 he2.symm
      rw [hq1, hq2] at hl'
      exact hl'

/-- A pair that appears in order in a duplicate-free list and survives a
`take` appears in the same order in the truncation. -/
theorem pair_sublist_take {α : Type} (l : List α) (n : Nat) (a b : α)
    (hnd : l.Nodup) (hab : [a, b] <+ l) (ha : a ∈ l.take n) (hb : b ∈ l.take n) :
    [a, b] <+ l.take n := by
  induction l generalizing n with
  | nil => simp at ha
  | cons x xs ih =>
      cases n with
      | zero => simp at ha
      | succ m =>
          rw [List.take_succ_cons] at ha hb ⊢
          rw [List.nodup_cons] at hnd
          cases hab with
          | cons _ hab2 =>
              have hax : a ≠ x := by
                intro he
                exact hnd.1 (he ▸ hab2.subset (by simp))
              have hbx : b ≠ x := by
                intro he
                exact hnd.1 (he ▸ hab2.subset (by simp))
              have ha2 : a ∈ xs.take m := by
                rcases List.mem_cons.mp ha with h | h
                · exact absurd h hax
                · exact h
              have hb2 : b ∈ xs.take m := by
                rcases List.mem_cons.mp hb with h | h
                · exact absurd h hbx
                · exact h
              exact (ih m hnd.2 hab2 ha2 hb2).cons x
          | cons₂ _ hab2 =>
              have hba : b ≠ a := by
                intro he
                exact hnd.1 (he ▸ hab2.subset (by simp))
              have hb2 : b ∈ xs.take m := by
                rcases List.mem_cons.mp hb with h | h
                · exact absurd h hba
                · exact h
              exact (List.singleton_sublist.mpr hb2).cons₂ a

set_option maxRecDepth 10000 in
/-- C2 as stated is false: the byArea view applies no display-label step —
a 45-character area label is carried untruncated as the only label of its
entry, not replaced by its first 37 characters plus an ellipsis marker. -/
theorem c2_counterexample :
    (chartData parseNone [⟨none, some label45, none, none⟩]).crimesByArea =
      [⟨label45, 1⟩] ∧
    label45.length > 40 ∧
    truncName label45 ≠ label45 := by
  refine ⟨?_, by decide, ?_⟩
  · have hne : ¬ (label45 = "") := by decide
    have hlab : areaLabel ⟨none, some label45, none, none⟩ = label45 := by
      show (if label45 = "" then "Unknown" else label45) = label45
      exact if_neg hne
    simp [chartData, initState, step, bump, typeLabel, hlab, dateKey, parseNone]
  · intro h
    have h40 : 40 < label45.length := by decide
    have htr : truncName label45 = label45.take 37 ++ "..." := by
      unfold truncName
      rw [if_pos h40]
    rw [htr] at h
    have hlen := congrArg String.length h
    rw [String.length_append] at hlen
    have h37 : (label45.take 37).length = 37 := by decide
    have h3 : ("..." : String).length = 3 := by decide
    have h45 : label45.length = 45 := by decide
    omega

/-- C2 amended: the byArea view shares the descending-by-value sort and the
15-entry cap with byCategory, but no display-label procedure is applied to
it: each byArea entry carries a single label, the untruncated resolved area
label of some input record. -/
theorem c2_area_labels (parse : String → Option (Nat × Nat)) (data : List RawRecord) :
    (chartData parse data).crimesByArea.length ≤ 15 ∧
    ((chartData parse data).crimesByArea.map AreaEntry.value).Pairwise (· ≥ ·) ∧
    (∀ e ∈ (chartData parse data).crimesByArea, ∃ r ∈ data, e.name = areaLabel r) := by
  by_cases h : data.length = 0
  · simp [chartData, h]
  · rw [chartData_eq parse data h]
    refine ⟨List.length_take_le _ _, ?_, ?_⟩
    · rw [List.pairwise_map]
      have hs := List.sorted_mergeSort descArea_trans descArea_total
        (((data.map areaLabel).foldl bump []).map (fun p => AreaEntry.mk p.1 p.2))
      exact ((hs.sublist (List.take_sublist _ _)).imp
        (fun hab => by simpa [descArea] using hab))
    · intro e he
      obtain ⟨p, hp, hpe⟩ := List.mem_map.mp (mem_take_mergeSort _ _ _ _ he)
      subst hpe
      have hk : p.1 ∈ ((data.map areaLabel).foldl bump []).map Prod.fst :=
        List.mem_map_of_mem Prod.fst hp
      rw [foldl_bump_keys_mem] at hk
      rcases hk with hk | hk
      · simp at hk
      · obtain ⟨r, hr, hre⟩ := List.mem_map.mp hk
        exact ⟨r, hr, hre.symm⟩

/-- C2 witness: the 45-character area label appears untruncated in the
byArea view. -/
theorem c2_witness :
    ∃ r ∈ ([⟨none, some label45, none, none⟩] : List RawRecord),
      (AreaEntry.mk label45 1).name = areaLabel r := by
  have hne : ¬ (label45 = "") := by decide
  have hlab : areaLabel ⟨none, some label45, none, none⟩ = label45 := by
    show (if label45 = "" then "Unknown" else label45) = label45
    exact if_neg hne
  have he : AreaEntry.mk label45 1 ∈
      (chartData parseNone [⟨none, some label45, none, none⟩]).crimesByArea := by
    simp [chartData, initState, step, bump, typeLabel, hlab, dateKey, parseNone]
  exact (c2_area_labels parseNone [⟨none, some label45, none, none⟩]).2.2 _ he

/-- C8: in both ranked views, entries with equal value appear in the
deterministic order given by the first occurrence of their labels in the
input: the insertion-ordered tables and the stable sort keep the earlier
first-occurring label earlier in the output. -/
theorem c8_tie_stability (parse : String → Option (Nat × Nat)) (data : List RawRecord) :
    (∀ e1 e2 : AreaEntry, e1 ∈ (chartData parse data).crimesByArea →
      e2 ∈ (chartData parse data).crimesByArea → e1.value = e2.value →
      (data.map areaLabel).indexOf e1.name < (data.map areaLabel).indexOf e2.name →
      [e1, e2] <+ (chartData parse data).crimesByArea) ∧
    (∀ e1 e2 : TypeEntry, e1 ∈ (chartData parse data).crimesByType →
      e2 ∈ (chartData parse data).crimesByType → e1.value = e2.value →
      (data.map typeLabel).indexOf e1.fullName <
        (data.map typeLabel).indexOf e2.fullName →
      [e1, e2] <+ (chartData parse data).crimesByType) := by
  by_cases h : data.length = 0
  · constructor <;>
      · intro e1 e2 he1 _ _ _
        rw [chartData, if_pos h] at he1
        cases he1
  · rw [chartData_eq parse data h]
    constructor
    · intro e1 e2 he1 he2 hv hord
      obtain ⟨p1, hp1, hpe1⟩ := List.mem_map.mp (mem_take_mergeSort _ _ _ _ he1)
      obtain ⟨p2, hp2, hpe2⟩ := List.mem_map.mp (mem_take_mergeSort _ _ _ _ he2)
      subst hpe1
      subst hpe2
      have hord2 : (data.map areaLabel).indexOf p1.1 <
          (data.map areaLabel).indexOf p2.1 := hord
      have hne : p1.1 ≠ p2.1 := by
        intro he
        rw [he] at hord2
        exact absurd hord2 (lt_irrefl _)
      have hp1b : (p1.1, p1.2) ∈ (data.map areaLabel).foldl bump [] := by
        rw [Prod.mk.eta]
        exact hp1
      have hp2b : (p2.1, p2.2) ∈ (data.map areaLabel).foldl bump [] := by
        rw [Prod.mk.eta]
        exact hp2
      have htab := table_pair_sublist (data.map areaLabel) p1.1 p2.1 p1.2 p2.2
        hne hp1b hp2b hord2
      have hmap := htab.map (fun p => AreaEntry.mk p.1 p.2)
      have hv2 : p1.2 = p2.2 := hv
      have hle : descArea (AreaEntry.mk p1.1 p1.2) (AreaEntry.mk p2.1 p2.2) := by
        simp only [descArea, decide_eq_true_eq]
        omega
      have hsorted := List.pair_sublist_mergeSort descArea_trans descArea_total hle hmap
      have hndkeys := foldl_bump_keys_nodup (data.map areaLabel) [] (by simp)
      have hndmap : ((((data.map areaLabel).foldl bump []).map
          (fun p => AreaEntry.mk p.1 p.2)).map AreaEntry.name).Nodup := by
        rw [List.map_map]
        exact hndkeys
      have hndsorted : ((((data.map areaLabel).foldl bump []).map
          (fun p => AreaEntry.mk p.1 p.2)).mergeSort descArea).Nodup :=
        (List.mergeSort_perm _ descArea).nodup_iff.mpr (hndmap.of_map _)
      exact pair_sublist_take _ 15 _ _ hndsorted hsorted he1 he2
    · intro e1 e2 he1 he2 hv hord
      obtain ⟨p1, hp1, hpe1⟩ := List.mem_map.mp (mem_take_mergeSort _ _ _ _ he1)
      obtain ⟨p2, hp2, hpe2⟩ := List.mem_map.mp (mem_take_mergeSort _ _ _ _ he2)
      subst hpe1
      subst hpe2
      have hord2 : (data.map typeLabel).indexOf p1.1 <
          (data.map typeLabel).indexOf p2.1 := hord
      have hne : p1.1 ≠ p2.1 := by
        intro he
        rw [he] at hord2
        exact absurd hord2 (lt_irrefl _)
      have hp1b : (p1.1, p1.2) ∈ (data.map typeLabel).foldl bump [] := by
        rw [Prod.mk.eta]
        exact hp1
      have hp2b : (p2.1, p2.2) ∈ (data.map typeLabel).foldl bump [] := by
        rw [Prod.mk.eta]
        exact hp2
      have htab := table_pair_sublist (data.map typeLabel) p1.1 p2.1 p1.2 p2.2
        hne hp1b hp2b hord2
      have hmap := htab.map (fun p => TypeEntry.mk (truncName p.1) p.1 p.2)
      have hv2 : p1.2 = p2.2 := hv
      have hle : descType (TypeEntry.mk (truncName p1.1) p1.1 p1.2)
          (TypeEntry.mk (truncName p2.1) p2.1 p2.2) := by
        simp only [descType, decide_eq_true_eq]
        omega
      have hsorted := List.pair_sublist_mergeSort descType_trans descType_total hle hmap
      have hndkeys := foldl_bump_keys_nodup (data.map typeLabel) [] (by simp)
      have hndmap : ((((data.map typeLabel).foldl bump []).map
          (fun p => TypeEntry.mk (truncName p.1) p.1 p.2)).map TypeEntry.fullName).Nodup := by
        rw [List.map_map]
        exact hndkeys
      have hndsorted : ((((data.map typeLabel).foldl bump []).map
          (fun p => TypeEntry.mk (truncName p.1) p.1 p.2)).mergeSort descType).Nodup :=
        (List.mergeSort_perm _ descType).nodup_iff.mpr (hndmap.of_map _)
      exact pair_sublist_take _ 15 _ _ hndsorted hsorted he1 he2

/-- C8 witness: two areas tied at one record each keep input order. -/
theorem c8_witness :
    [AreaEntry.mk "A" 1, AreaEntry.mk "B" 1] <+
      (chartData parseNone
        [⟨none, some "A", none, none⟩, ⟨none, some "B", none, none⟩]).crimesByArea := by
  have hpair : List.Pairwise (fun a b => descArea a b = true)
      [AreaEntry.mk "A" 1, AreaEntry.mk "B" 1] := by
    simp [descArea]
  have hout : (chartData parseNone
      [⟨none, some "A", none, none⟩, ⟨none, some "B", none, none⟩]).crimesByArea =
      [AreaEntry.mk "A" 1, AreaEntry.mk "B" 1] := by
    simp [chartData, initState, step, bump, typeLabel, areaLabel, jsOrS, dateKey,
      parseNone]
    rw [List.mergeSort_of_sorted hpair]
    simp
  exact (c8_tie_stability parseNone
      [⟨none, some "A", none, none⟩, ⟨none, some "B", none, none⟩]).1
    (AreaEntry.mk "A" 1) (AreaEntry.mk "B" 1)
    (by rw [hout]; simp) (by rw [hout]; simp) rfl (by decide)

/-- C6 witness: the spec's sample date increments the 2021-03 bucket. -/
theorem c6_witness :
    parseSample "" = none ∧
    monthKey 2021 2 = "2021-03" ∧
    (step parseSample initState ⟨none, none, none, some "2021-03-15"⟩).timeCount =
      bump initState.timeCount (monthKey 2021 2) :=
  ⟨by decide, by decide,
    (c6_date_handling parseSample initState ⟨none, none, none, some "2021-03-15"⟩
      (by decide)).1 "2021-03-15" 2021 2 rfl (by decide)⟩

end CrimeDash
